import Mathlib

/-!
Verification of the `hugo-kb-ingestion` pipeline
(`scripts/hugo-kb-ingestion/{chunker,embedder,uploader}.py`).

Modelling conventions.
* Python strings are modelled as `List Char`; Python's `str.lower`,
  `str.strip`, `str.replace` and the two `re.sub` normalisation steps are
  translated character by character below.
* Python floats are modelled as rationals (`ℚ`).  No floating-point
  arithmetic occurs in the verified code paths: vectors are opaque payloads
  that are only constructed (`[0.0] * 1536`) or passed through.
* The external services (OpenAI embeddings, Supabase inserts, pdfplumber
  extraction, the langchain `RecursiveCharacterTextSplitter`) are modelled
  as explicit function parameters ("oracles"); the theorems quantify over
  them.
* Python exceptions are modelled with `Except`; an exception value carries
  its message string.
-/

/-- The characters Python's `str.strip()` removes (string whitespace). -/
def isPySpace (c : Char) : Bool :=
  c = ' ' ∨ c = '\t' ∨ c = '\n' ∨ c = '\x0d' ∨ c = '\x0b' ∨ c = '\x0c'

/-- Python `str.lower()` (ASCII-faithful; all strings in play are ASCII). -/
def pyLower (s : List Char) : List Char := s.map Char.toLower

/-- Left strip: Python `str.strip()`'s removal of leading whitespace. -/
def lstripPy (s : List Char) : List Char := s.dropWhile isPySpace

/-- Right strip: Python `str.strip()`'s removal of trailing whitespace. -/
def rstripPy (s : List Char) : List Char := (s.reverse.dropWhile isPySpace).reverse

/-- Python `str.strip()`. -/
def pstrip (s : List Char) : List Char := rstripPy (lstripPy s)

/-- `chunker.clean_chunk_text`, step 1: `text.replace('\x00', '')`. -/
def removeNulls (s : List Char) : List Char := s.filter (fun c => c ≠ '\x00')

/-- `chunker.clean_chunk_text`, step 2: `re.sub(r' +', ' ', text)` —
each maximal run of spaces becomes a single space (the model keeps the
last space of each run, which yields the same string). -/
def collapseSpaces : List Char → List Char
  | [] => []
  | [c] => [c]
  | c :: d :: rest =>
    if c = ' ' ∧ d = ' ' then collapseSpaces (d :: rest)
    else c :: collapseSpaces (d :: rest)

/-- `chunker.clean_chunk_text`, step 3: `re.sub(r'\n\n+', '\n\n', text)` —
each maximal run of two or more newlines becomes exactly two (the model
keeps the last two newlines of each run, which yields the same string). -/
def collapseNewlines : List Char → List Char
  | c :: d :: e :: rest =>
    if c = '\n' ∧ d = '\n' ∧ e = '\n' then collapseNewlines (d :: e :: rest)
    else c :: collapseNewlines (d :: e :: rest)
  | l => l

/-- `chunker.clean_chunk_text`: remove null bytes, collapse space runs,
collapse newline runs, strip. -/
def clean_chunk_text (s : List Char) : List Char :=
  pstrip (collapseNewlines (collapseSpaces (removeNulls s)))

/-- Fuel-indexed core of Python `str.replace(pat, rep)`: replaces
non-overlapping occurrences left to right.  Called with `fuel ≥ s.length`
(and a non-empty pattern) the fuel never runs out. -/
def pyReplaceGo (pat rep : List Char) : Nat → List Char → List Char
  | 0, s => s
  | _, [] => []
  | fuel + 1, c :: rest =>
    if pat.isPrefixOf (c :: rest) then
      rep ++ pyReplaceGo pat rep fuel ((c :: rest).drop pat.length)
    else
      c :: pyReplaceGo pat rep fuel rest

/-- Python `s.replace(pat, rep)` for a non-empty pattern. -/
def pyReplace (s pat rep : List Char) : List Char := pyReplaceGo pat rep s.length s


/-! ## Filename metadata extraction (`chunker.extract_metadata_from_filename`) -/

/-- The per-chunk metadata mapping.  The source stores it as a dict with the
fixed keys `stage`, `workbookTitle`, `pageNumber` (extra caller-supplied keys
are possible in Python but are irrelevant to, and overwritten by, the code
paths verified here). -/
structure Meta where
  stage : List Char
  workbookTitle : List Char
  pageNumber : Nat
deriving DecidableEq, Repr

/-- `chunker.stage_patterns`: the fixed, insertion-ordered dict of
stage → regex.  Each regex is an alternation of literal keywords, so it is
modelled as the list of its alternatives; `re.search` on such a pattern
holds iff some alternative is a substring. -/
def stage_patterns : List (List Char × List (List Char)) :=
  [ ("celebration".toList, ["celebration".toList]),
    ("connection".toList, ["connection".toList, "vital connection".toList]),
    ("spark".toList, ["spark".toList, "love-spark".toList]),
    ("payOff".toList, ["pay-off".toList, "payoff".toList, "big pay-off".toList]),
    ("spiral".toList, ["spiral".toList, "spiral effect".toList]) ]

/-- Substring test (Python's `in` on strings / `re.search` for a literal):
true iff `pat` occurs contiguously in `s`. -/
def containsSub (pat : List Char) : List Char → Bool
  | [] => pat.isEmpty
  | c :: rest => pat.isPrefixOf (c :: rest) || containsSub pat rest

/-- `re.search(pattern, s)` for an alternation-of-literals pattern:
true iff some alternative occurs as a substring of `s`. -/
def reSearchAlts (alts : List (List Char)) (s : List Char) : Bool :=
  alts.any (fun k => containsSub k s)

/-- The first-match loop `for stage, pattern in stage_patterns.items(): ...`
over the lowercased name. -/
def findStage : List (List Char × List (List Char)) → List Char → Option (List Char)
  | [], _ => none
  | (st, alts) :: rest, nameLower =>
    if reSearchAlts alts nameLower then some st else findStage rest nameLower

/-- `chunker.extract_metadata_from_filename`.
`workbookTitle` is `filename.replace('.pdf', '')` (Python `replace` removes
every occurrence); `stage` is the first `stage_patterns` entry matching the
lowercased stripped name, defaulting to `"general"`.  `pageNumber` is not
set by this function; the record here carries 0 as a placeholder and is
overwritten by `chunk_pdf` per page. -/
def extract_metadata_from_filename (filename : List Char) : Meta :=
  let name := pyReplace filename ".pdf".toList []
  { stage := (findStage stage_patterns (pyLower name)).getD "general".toList,
    workbookTitle := name,
    pageNumber := 0 }

/-- Modelled from the spec: "`workbookTitle` = filename with its extension
removed" — everything before the last dot (a dotless filename unchanged).
Used only to compare the spec's words with the code (claim C5). -/
def stripExtensionSpec (filename : List Char) : List Char :=
  if '.' ∈ filename then (((filename.reverse.dropWhile (fun c => c ≠ '.')).drop 1).reverse)
  else filename

/-- Modelled from the spec: "`stage` is resolved by case-insensitive pattern
match against a fixed ordered table ... the first pattern whose keyword(s)
appear anywhere in the filename wins; if none match, `stage` defaults to
`general`" — written as the spec's ordered keyword table over a lowercased
string.  Used only to compare the spec's words with the code (claim C6). -/
def stageOfSpecTable (nameLower : List Char) : List Char :=
  if containsSub "celebration".toList nameLower then "celebration".toList
  else if containsSub "connection".toList nameLower ∨
      containsSub "vital connection".toList nameLower then "connection".toList
  else if containsSub "spark".toList nameLower ∨
      containsSub "love-spark".toList nameLower then "spark".toList
  else if containsSub "pay-off".toList nameLower ∨ containsSub "payoff".toList nameLower ∨
      containsSub "big pay-off".toList nameLower then "payOff".toList
  else if containsSub "spiral".toList nameLower ∨
      containsSub "spiral effect".toList nameLower then "spiral".toList
  else "general".toList


/-! ## The chunker (`chunker.chunk_pdf`) -/

/-- One chunk record, as assembled by `chunk_pdf` (a Python dict with the
fields below; the `embedding` key is absent until `batch_embed` adds it,
hence `Option`). -/
structure Chunk where
  content : List Char
  metadata : Meta
  chunk_index : Nat
  source_pdf : List Char
  embedding : Option (List ℚ) := none
deriving DecidableEq, Repr

/-- The inner loop of `chunk_pdf` over one page's split output: clean each
piece, skip it when shorter than 50 characters, otherwise emit a chunk and
bump `chunk_index`.  Returns the emitted chunks and the next index. -/
def emitPieces (md : Meta) (filename : List Char) (pageNum : Nat) :
    List (List Char) → Nat → List Chunk × Nat
  | [], ci => ([], ci)
  | t :: ts, ci =>
    let ct := clean_chunk_text t
    if ct.length < 50 then emitPieces md filename pageNum ts ci
    else
      let rec1 := emitPieces md filename pageNum ts (ci + 1)
      ({ content := ct,
         metadata := { md with pageNumber := pageNum },
         chunk_index := ci,
         source_pdf := filename } :: rec1.1, rec1.2)

/-- The outer loop of `chunk_pdf` over pages (`enumerate(text_by_page,
start=1)`): a whitespace-only page is skipped; otherwise its splitter output
is emitted via `emitPieces`, threading the running chunk index. -/
def emitPages (split : List Char → List (List Char)) (md : Meta) (filename : List Char) :
    List (List Char) → Nat → Nat → List Chunk
  | [], _, _ => []
  | pg :: rest, pageNum, ci =>
    if pstrip pg = [] then emitPages split md filename rest (pageNum + 1) ci
    else
      let em := emitPieces md filename pageNum (split pg) ci
      em.1 ++ emitPages split md filename rest (pageNum + 1) em.2

/-- `chunker.chunk_pdf`.  The external collaborators are parameters:
`split` is the langchain `RecursiveCharacterTextSplitter.split_text`
(the workbook/book mode selection on lines 43–64 only chooses that
splitter's constants, so both modes are instances of `split`), and
`extractResult` is the outcome of `extract_text_from_pdf` (`.error` for an
extraction exception, which makes `chunk_pdf` return `[]`).  The caller's
optional `metadata` dict is not modelled: its `stage`/`workbookTitle` keys
are overwritten by the extracted metadata and no verified claim concerns
other caller keys. -/
def chunk_pdf (split : List Char → List (List Char)) (pdf_filename : List Char)
    (extractResult : Except (List Char) (List (List Char))) : List Chunk :=
  let md := extract_metadata_from_filename pdf_filename
  match extractResult with
  | .error _ => []
  | .ok pages => if pages = [] then [] else emitPages split md pdf_filename pages 1 0


/-! ## The embedder (`embedder.generate_embedding`, `embedder.batch_embed`) -/

/-- A Python exception, identified by its message (`str(e)`). -/
structure PyError where
  msg : List Char
deriving DecidableEq, Repr

/-- The rate-limit test of `generate_embedding`:
`"rate limit" in error_msg.lower() or "429" in error_msg`. -/
def isRateLimitError (e : PyError) : Bool :=
  containsSub "rate limit".toList (pyLower e.msg) || containsSub "429".toList e.msg

/-- The empty-text / failed-chunk fallback vector `[0.0] * 1536`. -/
def zeroVec : List ℚ := List.replicate 1536 0

/-- Truncation before submission: `if len(text) > 32000: text = text[:32000]`. -/
def truncateText (text : List Char) : List Char :=
  if 32000 < text.length then text.take 32000 else text

/-- The retry loop `for attempt in range(max_retries)` of `generate_embedding`,
structurally recursive on the remaining iteration count.  `svc text attempt`
is the outcome of the service call on that attempt.  Returns `some result`
when the loop exits by `return` or `raise`, and `none` when it completes all
iterations normally (falling through to the post-loop statement on line 75).
A rate-limit error on a non-final attempt sleeps `2 ** attempt` seconds and
continues; the final `if attempt == max_retries - 1: raise` fires on the last
attempt; any other error falls off the end of the loop body, so the next
iteration runs (there is no explicit re-raise for a non-rate-limit error on a
non-final attempt). -/
def genLoop (svc : List Char → Nat → Except PyError (List ℚ)) (text : List Char)
    (maxRetries : Nat) : Nat → Nat → Option (Except PyError (List ℚ))
  | _, 0 => none
  | attempt, remaining + 1 =>
    match svc text attempt with
    | .ok v => some (.ok v)
    | .error e =>
      if isRateLimitError e ∧ attempt < maxRetries - 1 then
        genLoop svc text maxRetries (attempt + 1) remaining
      else if attempt = maxRetries - 1 then some (.error e)
      else genLoop svc text maxRetries (attempt + 1) remaining

/-- `embedder.generate_embedding`, instrumented: the second component is
`true` exactly when the post-loop fallback `return [0.0] * 1536` on line 75
executed.  Empty or whitespace-only text returns the zero vector before the
loop; otherwise the text is truncated and the retry loop runs. -/
def generate_embedding_traced (svc : List Char → Nat → Except PyError (List ℚ))
    (text : List Char) (maxRetries : Nat) : Except PyError (List ℚ) × Bool :=
  if text = [] ∨ pstrip text = [] then (.ok zeroVec, false)
  else
    match genLoop svc (truncateText text) maxRetries 0 maxRetries with
    | some r => (r, false)
    | none => (.ok zeroVec, true)

/-- `embedder.generate_embedding` (default `max_retries = 3`). -/
def generate_embedding (svc : List Char → Nat → Except PyError (List ℚ))
    (text : List Char) (maxRetries : Nat := 3) : Except PyError (List ℚ) :=
  (generate_embedding_traced svc text maxRetries).1

/-- The per-chunk fallback inside `batch_embed`'s `except` branch:
`generate_embedding(chunk["content"])` with the zero vector on failure. -/
def embedOneOrZero (svc : List Char → Nat → Except PyError (List ℚ))
    (content : List Char) : List ℚ :=
  match generate_embedding svc content 3 with
  | .ok v => v
  | .error _ => zeroVec

/-- Positional assignment of the batch response
(`for j, embedding_data in enumerate(response.data)`): the `j`-th vector
goes to the `j`-th chunk of the window.  A response shorter than the window
leaves the remaining chunks untouched, matching the Python loop; a response
longer than the window (which would make Python write outside the window,
violating the embedding-service interface of one vector per input) is
outside the model and excluded by hypothesis in the theorems. -/
def assignEmbs : List Chunk → List (List ℚ) → List Chunk
  | [], _ => []
  | c :: cs, [] => c :: cs
  | c :: cs, e :: es => { c with embedding := some e } :: assignEmbs cs es

/-- One window of `batch_embed`: try the batch call on the window's texts;
on success assign vectors by position, on failure embed each chunk
individually with the zero-vector fallback. -/
def processWindow (svcB : List (List Char) → Except PyError (List (List ℚ)))
    (svc : List Char → Nat → Except PyError (List ℚ)) (batch : List Chunk) : List Chunk :=
  match svcB (batch.map (fun c => c.content)) with
  | .ok embs => assignEmbs batch embs
  | .error _ => batch.map (fun c => { c with embedding := some (embedOneOrZero svc c.content) })

/-- The window loop `for i in range(0, total, batch_size)` of `batch_embed`,
fuel-indexed (fuel `≥ chunks.length` suffices for a positive batch size). -/
def batchEmbedGo (svcB : List (List Char) → Except PyError (List (List ℚ)))
    (svc : List Char → Nat → Except PyError (List ℚ)) (bs : Nat) :
    Nat → List Chunk → List Chunk
  | 0, l => l
  | _, [] => []
  | fuel + 1, c :: rest =>
    processWindow svcB svc ((c :: rest).take bs) ++
      batchEmbedGo svcB svc bs fuel ((c :: rest).drop bs)

/-- `embedder.batch_embed`.  `svcB` is the batch embedding call, `svc` the
single-text call used by the `generate_embedding` fallback.  Python's
`range(0, total, 0)` raises `ValueError`, so a zero batch size is outside
the model (the theorems assume `0 < bs`; the source's default is 100). -/
def batch_embed (svcB : List (List Char) → Except PyError (List (List ℚ)))
    (svc : List Char → Nat → Except PyError (List ℚ))
    (chunks : List Chunk) (bs : Nat := 100) : List Chunk :=
  if bs = 0 then chunks else batchEmbedGo svcB svc bs chunks.length chunks

/-! ## The uploader (`uploader.upload_chunks`) -/

/-- One row prepared for insertion into `document_chunks` (lines 45–51 of
`uploader.py`).  The `embedding` field holds the pgvector text produced by
`format_embedding_for_pgvector`. -/
structure URec where
  source_pdf : List Char
  chunk_index : Nat
  content : List Char
  embedding : List Char
  metadata : Meta
deriving DecidableEq, Repr

/-- The record built from a chunk dict.  `serializer` is
`format_embedding_for_pgvector` (Python's `str()` rendering of the float
list is abstracted; the claims never inspect the serialized text).
A chunk reaching the uploader has its `embedding` key set — `getD []`
stands in for the `KeyError` Python would raise otherwise. -/
def mkRecord (serializer : List ℚ → List Char) (c : Chunk) : URec :=
  { source_pdf := c.source_pdf,
    chunk_index := c.chunk_index,
    content := c.content,
    embedding := serializer (c.embedding.getD []),
    metadata := c.metadata }

/-- The individual-retry loop after a failed bulk insert: each record that
inserts individually does `success_count += 1; error_count -= 1`; a failed
individual insert only prints.  Counters are integers, as in Python. -/
def retryLoop (single : URec → Bool) : List URec → ℤ × ℤ → ℤ × ℤ
  | [], counts => counts
  | r :: rest, (s, e) =>
    if single r then retryLoop single rest (s + 1, e - 1)
    else retryLoop single rest (s, e)

/-- The batch loop `for i in range(0, total, batch_size)` of `upload_chunks`
(`batch_size` is the local constant 100), fuel-indexed.  `bulk` is the
bulk-insert call (`true` = no exception), `single` the per-record insert.
On bulk success `success_count += len(records)`; on bulk failure
`error_count += len(records)` followed by the individual retries. -/
def uploadGo (bulk : List URec → Bool) (single : URec → Bool)
    (serializer : List ℚ → List Char) : Nat → List Chunk → ℤ × ℤ → ℤ × ℤ
  | 0, _, counts => counts
  | _, [], counts => counts
  | fuel + 1, c :: rest, (s, e) =>
    let records := ((c :: rest).take 100).map (mkRecord serializer)
    let counts' :=
      if bulk records then (s + records.length, e)
      else retryLoop single records (s, e + records.length)
    uploadGo bulk single serializer fuel ((c :: rest).drop 100) counts'

/-- `uploader.upload_chunks` (credential handling and client construction,
lines 20–30, are environment plumbing outside the claims).  Returns the
final `(success_count, error_count)` pair on the no-failure path and raises
(`.error`) carrying the failed-record count when `error_count > 0`. -/
def upload_chunks (bulk : List URec → Bool) (single : URec → Bool)
    (serializer : List ℚ → List Char) (chunks : List Chunk) : Except ℤ (ℤ × ℤ) :=
  let counts := uploadGo bulk single serializer chunks.length chunks (0, 0)
  if 0 < counts.2 then .error counts.2 else .ok counts

/-- The number of records that fail both their batch's bulk insert and their
individual insert, window by window — the `k` of the upload claims. -/
def uploadFailedK (bulk : List URec → Bool) (single : URec → Bool)
    (serializer : List ℚ → List Char) : Nat → List Chunk → Nat
  | 0, _ => 0
  | _, [] => 0
  | fuel + 1, c :: rest =>
    let records := ((c :: rest).take 100).map (mkRecord serializer)
    (if bulk records then 0 else (records.filter (fun r => ! single r)).length) +
      uploadFailedK bulk single serializer fuel ((c :: rest).drop 100)

/-! ## Auxiliary definitions for the statements and witnesses -/

/-- The embedding claim C2 assigns to the chunk at global position `p`:
its window is the `bs`-sized slice starting at `bs * (p / bs)`; if the
window's batch call succeeds the chunk gets the response vector at its
window offset `p % bs`, otherwise the individual embedding of its own
content with the zero-vector fallback (`embedOneOrZero`). -/
def expectedEmbedding (svcB : List (List Char) → Except PyError (List (List ℚ)))
    (svc : List Char → Nat → Except PyError (List ℚ))
    (chunks : List Chunk) (bs p : Nat) : List ℚ :=
  match svcB (((chunks.drop (bs * (p / bs))).take bs).map (fun c => c.content)) with
  | .ok embs => embs.getD (p % bs) zeroVec
  | .error _ =>
    embedOneOrZero svc
      ((((chunks.drop (bs * (p / bs))).take bs).map (fun c => c.content)).getD (p % bs) [])

/-- The non-embedding fields of a chunk record. -/
def chunkFields (c : Chunk) : List Char × Meta × Nat × List Char :=
  (c.content, c.metadata, c.chunk_index, c.source_pdf)

/-- A service world demonstrating the C1 retry bug: the first call fails
with a non-rate-limit error, every later call succeeds. -/
def svcNonRateLimitThenOk : List Char → Nat → Except PyError (List ℚ) :=
  fun _ attempt => if attempt = 0 then .error ⟨"boom".toList⟩ else .ok [1]

/-- A concrete unembedded chunk, used by the C8 witness. -/
def wChunk : Chunk :=
  { content := List.replicate 60 'a',
    metadata := { stage := "general".toList, workbookTitle := "w".toList, pageNumber := 1 },
    chunk_index := 0,
    source_pdf := "w.pdf".toList,
    embedding := none }

/-- The always-failing batch service used by the C2/C9 witnesses. -/
def wSvcBErr : List (List Char) → Except PyError (List (List ℚ)) :=
  fun _ => .error ⟨"x".toList⟩

/-- The always-failing single-text service used by the C2/C9 witnesses. -/
def wSvcErr : List Char → Nat → Except PyError (List ℚ) :=
  fun _ _ => .error ⟨"boom".toList⟩

/-- A concrete chunk for the C2/C9 witnesses. -/
def wChunk2 : Chunk :=
  { content := "hello world, this is a chunk".toList,
    metadata := { stage := "general".toList, workbookTitle := "w".toList, pageNumber := 1 },
    chunk_index := 0,
    source_pdf := "w.pdf".toList,
    embedding := none }

/-! ## Normalizer analysis (claims C7 and C8) -/

theorem containsSub_cons_false {pat : List Char} {c : Char} {l : List Char}
    (h : containsSub pat (c :: l) = false) :
    pat.isPrefixOf (c :: l) = false ∧ containsSub pat l = false := by
  rw [containsSub, Bool.or_eq_false_iff] at h
  exact h

theorem containsSub_pat_nil : ∀ l : List Char, containsSub ([] : List Char) l = true
  | [] => rfl
  | _ :: rest => by rw [containsSub, List.isPrefixOf]; rfl

theorem isPrefixOf_append_extend :
    ∀ (pat l t : List Char), pat.isPrefixOf l = true → pat.isPrefixOf (l ++ t) = true
  | [], l, t, _ => by cases l <;> cases t <;> rfl
  | p :: ps, [], t, h => by simp [List.isPrefixOf] at h
  | p :: ps, b :: bs, t, h => by
    simp only [List.isPrefixOf, Bool.and_eq_true, beq_iff_eq, List.cons_append] at h ⊢
    exact ⟨h.1, isPrefixOf_append_extend ps bs t h.2⟩

theorem containsSub_append_left {pat : List Char} :
    ∀ {l t : List Char}, containsSub pat l = true → containsSub pat (l ++ t) = true := by
  intro l
  induction l with
  | nil =>
    intro t h
    have : pat = [] := by
      cases pat with
      | nil => rfl
      | cons p ps => simp [containsSub, List.isEmpty] at h
    rw [this]
    exact containsSub_pat_nil t
  | cons c rest ih =>
    intro t h
    rw [containsSub, Bool.or_eq_true] at h
    rw [List.cons_append, containsSub, Bool.or_eq_true]
    rcases h with h | h
    · exact Or.inl (by simpa using isPrefixOf_append_extend pat (c :: rest) t h)
    · exact Or.inr (ih h)

theorem containsSub_append_right {pat : List Char} :
    ∀ {l t : List Char}, containsSub pat t = true → containsSub pat (l ++ t) = true := by
  intro l
  induction l with
  | nil => intro t h; exact h
  | cons c rest ih =>
    intro t h
    rw [List.cons_append, containsSub, Bool.or_eq_true]
    exact Or.inr (ih h)

theorem containsSub_of_append_left_false {pat l t : List Char}
    (h : containsSub pat (l ++ t) = false) : containsSub pat l = false := by
  cases hl : containsSub pat l with
  | false => rfl
  | true => rw [containsSub_append_left hl] at h; exact absurd h (by decide)

theorem containsSub_of_append_right_false {pat l t : List Char}
    (h : containsSub pat (l ++ t) = false) : containsSub pat t = false := by
  cases ht : containsSub pat t with
  | false => rfl
  | true => rw [containsSub_append_right ht] at h; exact absurd h (by decide)

theorem containsSub_dropWhile_false {pat : List Char} (q : Char → Bool) :
    ∀ {l : List Char}, containsSub pat l = false →
      containsSub pat (l.dropWhile q) = false := by
  intro l
  induction l with
  | nil => intro h; exact h
  | cons c rest ih =>
    intro h
    rw [List.dropWhile_cons]
    by_cases hq : q c
    · rw [if_pos hq]
      exact ih (containsSub_cons_false h).2
    · rw [if_neg hq]
      exact h

theorem rstripPy_append (m : List Char) : ∃ t, rstripPy m ++ t = m := by
  obtain ⟨t, ht⟩ := List.dropWhile_suffix (l := m.reverse) isPySpace
  refine ⟨t.reverse, ?_⟩
  have := congrArg List.reverse ht
  simpa [rstripPy] using this

theorem containsSub_rstripPy_false {pat m : List Char}
    (h : containsSub pat m = false) : containsSub pat (rstripPy m) = false := by
  obtain ⟨t, ht⟩ := rstripPy_append m
  exact containsSub_of_append_left_false (ht ▸ h)

theorem containsSub_pstrip_false {pat l : List Char}
    (h : containsSub pat l = false) : containsSub pat (pstrip l) = false :=
  containsSub_rstripPy_false (containsSub_dropWhile_false isPySpace h)

theorem collapseSpaces_head : ∀ l : List Char, (collapseSpaces l).head? = l.head?
  | [] => rfl
  | [_] => rfl
  | c :: d :: rest => by
    rw [collapseSpaces]
    by_cases h : c = ' ' ∧ d = ' '
    · rw [if_pos h, collapseSpaces_head (d :: rest)]
      simp [h.1, h.2]
    · rw [if_neg h]
      rfl

theorem collapseNewlines_head : ∀ l : List Char, (collapseNewlines l).head? = l.head?
  | [] => rfl
  | [_] => rfl
  | [_, _] => rfl
  | c :: d :: e :: rest => by
    rw [collapseNewlines]
    by_cases h : c = '\n' ∧ d = '\n' ∧ e = '\n'
    · rw [if_pos h, collapseNewlines_head (d :: e :: rest)]
      simp [h.1, h.2.1]
    · rw [if_neg h]
      rfl

/-- The output of `collapseSpaces` has no two adjacent spaces. -/
theorem collapseSpaces_noDS : ∀ l : List Char, containsSub [' ', ' '] (collapseSpaces l) = false
  | [] => rfl
  | [c] => by simp [collapseSpaces, containsSub, List.isPrefixOf]
  | c :: d :: rest => by
    rw [collapseSpaces]
    by_cases h : c = ' ' ∧ d = ' '
    · rw [if_pos h]
      exact collapseSpaces_noDS (d :: rest)
    · rw [if_neg h]
      have hrec := collapseSpaces_noDS (d :: rest)
      rw [containsSub, Bool.or_eq_false_iff]
      refine ⟨?_, hrec⟩
      by_cases hc : c = ' '
      · have hd : ¬ d = ' ' := fun hd => h ⟨hc, hd⟩
        cases hT : collapseSpaces (d :: rest) with
        | nil => simp [List.isPrefixOf, hT]
        | cons t T' =>
          have : (collapseSpaces (d :: rest)).head? = some d := by
            rw [collapseSpaces_head]; rfl
          rw [hT] at this
          simp only [List.head?_cons, Option.some.injEq] at this
          subst this
          simp only [List.isPrefixOf, Bool.and_eq_false_iff]
          simp only [beq_eq_false_iff_ne, ne_eq]
          exact Or.inr (Or.inl fun h' => hd h'.symm)
      · simp only [List.isPrefixOf, Bool.and_eq_false_iff]
        simp only [beq_eq_false_iff_ne, ne_eq]
        exact Or.inl fun h' => hc h'.symm

/-- `collapseNewlines` cannot create a double space: it only removes
newlines, and always leaves two newlines between the kept parts. -/
theorem collapseNewlines_noDS :
    ∀ l : List Char, containsSub [' ', ' '] l = false →
      containsSub [' ', ' '] (collapseNewlines l) = false
  | [], h => h
  | [_], h => h
  | [_, _], h => h
  | c :: d :: e :: rest, h => by
    rw [collapseNewlines]
    have htail : containsSub [' ', ' '] (d :: e :: rest) = false :=
      (containsSub_cons_false h).2
    by_cases hb : c = '\n' ∧ d = '\n' ∧ e = '\n'
    · rw [if_pos hb]
      exact collapseNewlines_noDS (d :: e :: rest) htail
    · rw [if_neg hb]
      have hrec := collapseNewlines_noDS (d :: e :: rest) htail
      rw [containsSub, Bool.or_eq_false_iff]
      refine ⟨?_, hrec⟩
      by_cases hc : c = ' '
      · have hd : ¬ d = ' ' := by
          intro hd
          have := (containsSub_cons_false h).1
          simp [List.isPrefixOf, hc, hd] at this
        cases hT : collapseNewlines (d :: e :: rest) with
        | nil => simp [List.isPrefixOf, hT]
        | cons t T' =>
          have : (collapseNewlines (d :: e :: rest)).head? = some d := by
            rw [collapseNewlines_head]; rfl
          rw [hT] at this
          simp only [List.head?_cons, Option.some.injEq] at this
          subst this
          simp only [List.isPrefixOf, Bool.and_eq_false_iff]
          simp only [beq_eq_false_iff_ne, ne_eq]
          exact Or.inr (Or.inl fun h' => hd h'.symm)
      · simp only [List.isPrefixOf, Bool.and_eq_false_iff]
        simp only [beq_eq_false_iff_ne, ne_eq]
        exact Or.inl fun h' => hc h'.symm

/-- On a string with no double space, `collapseSpaces` is the identity. -/
theorem collapseSpaces_id :
    ∀ l : List Char, containsSub [' ', ' '] l = false → collapseSpaces l = l
  | [], _ => rfl
  | [_], _ => rfl
  | c :: d :: rest, h => by
    rw [collapseSpaces]
    have hnd : ¬ (c = ' ' ∧ d = ' ') := by
      rintro ⟨hc, hd⟩
      have := (containsSub_cons_false h).1
      simp [List.isPrefixOf, hc, hd] at this
    rw [if_neg hnd, collapseSpaces_id (d :: rest) (containsSub_cons_false h).2]

/-- On a string with no triple newline, `collapseNewlines` is the identity. -/
theorem collapseNewlines_id :
    ∀ l : List Char, containsSub ['\n', '\n', '\n'] l = false → collapseNewlines l = l
  | [], _ => rfl
  | [_], _ => rfl
  | [_, _], _ => rfl
  | c :: d :: e :: rest, h => by
    rw [collapseNewlines]
    have hnd : ¬ (c = '\n' ∧ d = '\n' ∧ e = '\n') := by
      rintro ⟨hc, hd, he⟩
      have := (containsSub_cons_false h).1
      simp [List.isPrefixOf, hc, hd, he] at this
    rw [if_neg hnd,
      collapseNewlines_id (d :: e :: rest) (containsSub_cons_false h).2]

/-- The output of `collapseNewlines` has no three adjacent newlines. -/
theorem collapseNewlines_noTN :
    ∀ l : List Char, containsSub ['\n', '\n', '\n'] (collapseNewlines l) = false
  | [] => rfl
  | [c] => by simp [collapseNewlines, containsSub, List.isPrefixOf]
  | [c, d] => by simp [collapseNewlines, containsSub, List.isPrefixOf]
  | c :: d :: e :: rest => by
    rw [collapseNewlines]
    by_cases hb : c = '\n' ∧ d = '\n' ∧ e = '\n'
    · rw [if_pos hb]
      exact collapseNewlines_noTN (d :: e :: rest)
    · rw [if_neg hb]
      have hrec := collapseNewlines_noTN (d :: e :: rest)
      rw [containsSub, Bool.or_eq_false_iff]
      refine ⟨?_, hrec⟩
      by_cases hc : c = '\n'
      · by_cases hd : d = '\n'
        · have he : ¬ e = '\n' := fun he => hb ⟨hc, hd, he⟩
          cases rest with
          | nil =>
            subst hc hd
            simp only [collapseNewlines, List.isPrefixOf]
            simp only [Bool.and_eq_false_iff, beq_eq_false_iff_ne, ne_eq]
            exact Or.inr (Or.inr (Or.inl fun h' => he h'.symm))
          | cons f rest2 =>
            have hcond : ¬ (d = '\n' ∧ e = '\n' ∧ f = '\n') := fun hx => he hx.2.1
            have hT : collapseNewlines (d :: e :: f :: rest2) =
                d :: collapseNewlines (e :: f :: rest2) := by
              rw [collapseNewlines, if_neg hcond]
            rw [hT]
            cases hT2 : collapseNewlines (e :: f :: rest2) with
            | nil => simp [List.isPrefixOf]
            | cons u T3 =>
              have hu : (collapseNewlines (e :: f :: rest2)).head? = some e := by
                rw [collapseNewlines_head]; rfl
              rw [hT2] at hu
              simp only [List.head?_cons, Option.some.injEq] at hu
              subst hu
              simp only [List.isPrefixOf, Bool.and_eq_false_iff]
              simp only [beq_eq_false_iff_ne, ne_eq]
              exact Or.inr (Or.inr (Or.inl fun h' => he h'.symm))
        · cases hT : collapseNewlines (d :: e :: rest) with
          | nil => simp [List.isPrefixOf]
          | cons t T' =>
            have ht : (collapseNewlines (d :: e :: rest)).head? = some d := by
              rw [collapseNewlines_head]; rfl
            rw [hT] at ht
            simp only [List.head?_cons, Option.some.injEq] at ht
            subst ht
            simp only [List.isPrefixOf, Bool.and_eq_false_iff]
            simp only [beq_eq_false_iff_ne, ne_eq]
            exact Or.inr (Or.inl fun h' => hd h'.symm)
      · simp only [List.isPrefixOf, Bool.and_eq_false_iff]
        simp only [beq_eq_false_iff_ne, ne_eq]
        exact Or.inl fun h' => hc h'.symm

/-- `pstrip` cannot create a triple newline (it only removes characters at
the two ends). -/
theorem collapseSpaces_sublist : ∀ l : List Char, List.Sublist (collapseSpaces l) l
  | [] => List.Sublist.refl []
  | [c] => List.Sublist.refl [c]
  | c :: d :: rest => by
    rw [collapseSpaces]
    by_cases h : c = ' ' ∧ d = ' '
    · rw [if_pos h]
      exact (collapseSpaces_sublist (d :: rest)).trans (List.sublist_cons_self c (d :: rest))
    · rw [if_neg h]
      exact (collapseSpaces_sublist (d :: rest)).cons₂ c

theorem collapseNewlines_sublist :
    ∀ l : List Char, List.Sublist (collapseNewlines l) l
  | [] => List.Sublist.refl _
  | [c] => List.Sublist.refl _
  | [c, d] => List.Sublist.refl _
  | c :: d :: e :: rest => by
    rw [collapseNewlines]
    by_cases h : c = '\n' ∧ d = '\n' ∧ e = '\n'
    · rw [if_pos h]
      exact (collapseNewlines_sublist (d :: e :: rest)).trans
        (List.sublist_cons_self c (d :: e :: rest))
    · rw [if_neg h]
      exact (collapseNewlines_sublist (d :: e :: rest)).cons₂ c

theorem rstripPy_isPrefix (m : List Char) : rstripPy m <+: m := by
  obtain ⟨t, ht⟩ := rstripPy_append m
  exact ⟨t, ht⟩

theorem pstrip_sublist (l : List Char) : List.Sublist (pstrip l) l :=
  ((rstripPy_isPrefix (lstripPy l)).sublist).trans (List.dropWhile_sublist isPySpace)

theorem clean_noNull (s : List Char) : ∀ c ∈ clean_chunk_text s, ¬ c = '\x00' := by
  intro c hc
  have hsub : List.Sublist (clean_chunk_text s) (removeNulls s) :=
    (pstrip_sublist _).trans
      ((collapseNewlines_sublist _).trans (collapseSpaces_sublist _))
  have h1 : c ∈ removeNulls s := hsub.subset hc
  rw [removeNulls, List.mem_filter] at h1
  simpa using h1.2

theorem removeNulls_id {l : List Char} (h : ∀ c ∈ l, ¬ c = '\x00') : removeNulls l = l :=
  List.filter_eq_self.mpr fun a ha => by simpa using h a ha

theorem dropWhile_head_false (p : Char → Bool) :
    ∀ (l : List Char) {c : Char} {rest : List Char},
      l.dropWhile p = c :: rest → p c = false := by
  intro l
  induction l with
  | nil => intro c rest h; simp [List.dropWhile] at h
  | cons a l ih =>
    intro c rest h
    rw [List.dropWhile_cons] at h
    by_cases hp : p a
    · rw [if_pos hp] at h
      exact ih h
    · rw [if_neg hp] at h
      cases h
      simpa using hp

theorem dropWhile_idem_py (l : List Char) :
    (l.dropWhile isPySpace).dropWhile isPySpace = l.dropWhile isPySpace := by
  cases h : l.dropWhile isPySpace with
  | nil => rfl
  | cons c rest =>
    rw [List.dropWhile_cons, dropWhile_head_false isPySpace l h]
    simp

theorem lstripPy_idem (l : List Char) : lstripPy (lstripPy l) = lstripPy l :=
  dropWhile_idem_py l

theorem rstripPy_idem (m : List Char) : rstripPy (rstripPy m) = rstripPy m := by
  rw [rstripPy, rstripPy, List.reverse_reverse, dropWhile_idem_py]

theorem lstripPy_of_rstripPy {m : List Char} (hm : lstripPy m = m) :
    lstripPy (rstripPy m) = rstripPy m := by
  cases hr : rstripPy m with
  | nil => rfl
  | cons c rest =>
    obtain ⟨t, ht⟩ := rstripPy_append m
    rw [hr] at ht
    have hcm : m = c :: (rest ++ t) := by rw [← ht]; rfl
    have hc : isPySpace c = false := by
      have := hm
      rw [hcm] at this
      exact dropWhile_head_false isPySpace (c :: (rest ++ t)) this
    rw [lstripPy, List.dropWhile_cons, hc]
    simp

theorem pstrip_idem (l : List Char) : pstrip (pstrip l) = pstrip l := by
  rw [pstrip, pstrip, lstripPy_of_rstripPy (lstripPy_idem l), rstripPy_idem]

/-- **C7.**  The chunk text normalizer is idempotent: normalizing
already-normalized text yields the same text. -/
theorem clean_chunk_text_idempotent (s : List Char) :
    clean_chunk_text (clean_chunk_text s) = clean_chunk_text s := by
  have hDS : containsSub [' ', ' '] (clean_chunk_text s) = false := by
    rw [clean_chunk_text]
    exact containsSub_pstrip_false (collapseNewlines_noDS _ (collapseSpaces_noDS _))
  have hTN : containsSub ['\n', '\n', '\n'] (clean_chunk_text s) = false := by
    rw [clean_chunk_text]
    exact containsSub_pstrip_false (collapseNewlines_noTN _)
  have hstrip : pstrip (clean_chunk_text s) = clean_chunk_text s := by
    rw [clean_chunk_text]
    exact pstrip_idem _
  calc clean_chunk_text (clean_chunk_text s)
      = pstrip (collapseNewlines (collapseSpaces (removeNulls (clean_chunk_text s)))) := rfl
    _ = pstrip (collapseNewlines (collapseSpaces (clean_chunk_text s))) := by
        rw [removeNulls_id (clean_noNull s)]
    _ = pstrip (collapseNewlines (clean_chunk_text s)) := by
        rw [collapseSpaces_id _ hDS]
    _ = pstrip (clean_chunk_text s) := by
        rw [collapseNewlines_id _ hTN]
    _ = clean_chunk_text s := hstrip

theorem emitPieces_content (md : Meta) (f : List Char) (pn : Nat) :
    ∀ (ts : List (List Char)) (ci : Nat), ∀ c ∈ (emitPieces md f pn ts ci).1,
      50 ≤ c.content.length ∧ ∀ ch ∈ c.content, ¬ ch = '\x00' := by
  intro ts
  induction ts with
  | nil => intro ci c hc; simp [emitPieces] at hc
  | cons t ts ih =>
    intro ci c hc
    by_cases h : (clean_chunk_text t).length < 50
    · rw [emitPieces, if_pos h] at hc
      exact ih ci c hc
    · rw [emitPieces, if_neg h] at hc
      rcases List.mem_cons.mp hc with h1 | h1
      · subst h1
        refine ⟨?_, fun ch hch => clean_noNull t ch hch⟩
        show 50 ≤ (clean_chunk_text t).length
        omega
      · exact ih (ci + 1) c h1

theorem emitPages_content (split : List Char → List (List Char)) (md : Meta)
    (f : List Char) :
    ∀ (pages : List (List Char)) (pn ci : Nat), ∀ c ∈ emitPages split md f pages pn ci,
      50 ≤ c.content.length ∧ ∀ ch ∈ c.content, ¬ ch = '\x00' := by
  intro pages
  induction pages with
  | nil => intro pn ci c hc; simp [emitPages] at hc
  | cons pg rest ih =>
    intro pn ci c hc
    by_cases h : pstrip pg = []
    · rw [emitPages, if_pos h] at hc
      exact ih (pn + 1) ci c hc
    · rw [emitPages, if_neg h] at hc
      rcases List.mem_append.mp hc with h1 | h1
      · exact emitPieces_content md f pn (split pg) ci c h1
      · exact ih (pn + 1) _ c h1

/-- **C8.**  Every chunk record `chunk_pdf` emits (in either splitter mode,
since the statement holds for an arbitrary splitter) has content of length
at least the 50-character floor and contains no null characters; shorter
normalized chunks are discarded. -/
theorem chunk_content_invariant (split : List Char → List (List Char))
    (pdf_filename : List Char) (extractResult : Except (List Char) (List (List Char)))
    (c : Chunk) (hc : c ∈ chunk_pdf split pdf_filename extractResult) :
    50 ≤ c.content.length ∧ ∀ ch ∈ c.content, ¬ ch = '\x00' := by
  cases extractResult with
  | error e => rw [chunk_pdf] at hc; simp at hc
  | ok pages =>
    rw [chunk_pdf] at hc
    by_cases h : pages = []
    · rw [if_pos h] at hc; simp at hc
    · rw [if_neg h] at hc
      exact emitPages_content split _ pdf_filename pages 1 0 c hc

theorem chunk_content_invariant_witness :
    50 ≤ wChunk.content.length ∧ ∀ ch ∈ wChunk.content, ¬ ch = '\x00' :=
  chunk_content_invariant (fun t => [t]) "w.pdf".toList
    (.ok [List.replicate 60 'a']) wChunk (by decide)

/-! ## workbookTitle extraction (claim C5) -/

theorem pyReplaceGo_nil (pat rep : List Char) (fuel : Nat) :
    pyReplaceGo pat rep fuel [] = [] := by
  cases fuel <;> rfl

/-- If `".pdf"` matches at the head of `base ++ ".pdf"`, it already matches
at the head of `base` — the pattern cannot straddle the append boundary
(no proper suffix of `".pdf"` followed by a prefix of `".pdf"` spells
`".pdf"`). -/
theorem pdf_head_match {c : Char} {rest : List Char}
    (hp : (".pdf".toList).isPrefixOf (c :: rest ++ ".pdf".toList) = true) :
    (".pdf".toList).isPrefixOf (c :: rest) = true := by
  match rest with
  | [] => simp [List.isPrefixOf] at hp
  | [a] => simp [List.isPrefixOf] at hp
  | [a, b] => simp [List.isPrefixOf] at hp
  | a :: b :: d :: rrest =>
    simp only [List.cons_append, List.isPrefixOf, List.nil_append, Bool.and_eq_true,
      beq_iff_eq, String.toList] at hp ⊢
    exact ⟨hp.1, hp.2.1, hp.2.2.1, hp.2.2.2.1, trivial⟩

theorem pyReplaceGo_strips_suffix :
    ∀ (fuel : Nat) (base : List Char), (base ++ ".pdf".toList).length ≤ fuel →
      containsSub ".pdf".toList base = false →
      pyReplaceGo ".pdf".toList [] fuel (base ++ ".pdf".toList) = base := by
  intro fuel
  induction fuel with
  | zero => intro base h _; simp at h
  | succ fuel ih =>
    intro base hlen hnc
    match base with
    | [] =>
      have hstep : pyReplaceGo ".pdf".toList [] (fuel + 1) ([] ++ ".pdf".toList) =
          pyReplaceGo ".pdf".toList [] fuel [] := rfl
      rw [hstep, pyReplaceGo_nil]
    | c :: rest =>
      have hnc2 : (".pdf".toList).isPrefixOf (c :: rest) = false ∧
          containsSub ".pdf".toList rest = false := by
        rw [containsSub, Bool.or_eq_false_iff] at hnc
        exact hnc
      by_cases hp : (".pdf".toList).isPrefixOf (c :: rest ++ ".pdf".toList)
      · have hmatch := pdf_head_match hp
        rw [hnc2.1] at hmatch
        exact absurd hmatch (by decide)
      · rw [List.cons_append] at hp ⊢
        rw [pyReplaceGo, if_neg hp]
        have := ih rest
          (by simp only [List.length_append, List.length_cons] at hlen ⊢; omega) hnc2.2
        rw [this]

/-- Python's `filename.replace('.pdf', '')` on a filename `base ++ ".pdf"`
whose base contains no `".pdf"` occurrence removes exactly the extension. -/
theorem pyReplace_strips_suffix (base : List Char)
    (hnc : containsSub ".pdf".toList base = false) :
    pyReplace (base ++ ".pdf".toList) ".pdf".toList [] = base :=
  pyReplaceGo_strips_suffix (base ++ ".pdf".toList).length base le_rfl hnc

theorem emitPieces_workbookTitle (md : Meta) (f : List Char) (pn : Nat) :
    ∀ (ts : List (List Char)) (ci : Nat),
      ∀ c ∈ (emitPieces md f pn ts ci).1, c.metadata.workbookTitle = md.workbookTitle := by
  intro ts
  induction ts with
  | nil => intro ci c hc; simp [emitPieces] at hc
  | cons t ts ih =>
    intro ci c hc
    by_cases h : (clean_chunk_text t).length < 50
    · rw [emitPieces, if_pos h] at hc
      exact ih ci c hc
    · rw [emitPieces, if_neg h] at hc
      rcases List.mem_cons.mp hc with h1 | h1
      · rw [h1]
      · exact ih (ci + 1) c h1

theorem emitPages_workbookTitle (split : List Char → List (List Char)) (md : Meta)
    (f : List Char) :
    ∀ (pages : List (List Char)) (pn ci : Nat),
      ∀ c ∈ emitPages split md f pages pn ci, c.metadata.workbookTitle = md.workbookTitle := by
  intro pages
  induction pages with
  | nil => intro pn ci c hc; simp [emitPages] at hc
  | cons pg rest ih =>
    intro pn ci c hc
    by_cases h : pstrip pg = []
    · rw [emitPages, if_pos h] at hc
      exact ih (pn + 1) ci c hc
    · rw [emitPages, if_neg h] at hc
      rcases List.mem_append.mp hc with h1 | h1
      · exact emitPieces_workbookTitle md f pn (split pg) ci c h1
      · exact ih (pn + 1) _ c h1

/-- **C5, amended.**  `workbookTitle` is the filename with every occurrence
of the substring `".pdf"` removed; when the filename's only occurrence of
`".pdf"` is its trailing extension, this coincides with "extension
stripped": for every base containing no `".pdf"`, the filename
`base ++ ".pdf"` yields `workbookTitle = base`, and every chunk of that
document carries it verbatim. -/
theorem workbookTitle_of_chunks (base : List Char)
    (split : List Char → List (List Char))
    (extractResult : Except (List Char) (List (List Char)))
    (hnc : containsSub ".pdf".toList base = false) :
    (extract_metadata_from_filename (base ++ ".pdf".toList)).workbookTitle = base ∧
    ∀ c ∈ chunk_pdf split (base ++ ".pdf".toList) extractResult,
      c.metadata.workbookTitle = base := by
  have htitle : (extract_metadata_from_filename (base ++ ".pdf".toList)).workbookTitle = base := by
    rw [extract_metadata_from_filename]
    exact pyReplace_strips_suffix base hnc
  refine ⟨htitle, ?_⟩
  intro c hc
  cases extractResult with
  | error e => rw [chunk_pdf] at hc; simp at hc
  | ok pages =>
    rw [chunk_pdf] at hc
    by_cases h : pages = []
    · rw [if_pos h] at hc; simp at hc
    · rw [if_neg h] at hc
      rw [emitPages_workbookTitle split _ _ pages 1 0 c hc, htitle]

theorem workbookTitle_of_chunks_witness :
    (extract_metadata_from_filename
        ("TIC Workbook 1 - Celebration".toList ++ ".pdf".toList)).workbookTitle =
      "TIC Workbook 1 - Celebration".toList :=
  (workbookTitle_of_chunks "TIC Workbook 1 - Celebration".toList (fun t => [t])
    (.ok []) (by decide)).1

/-- **C5, counterexample.**  For the filename `"a.pdf.pdf"` the code's
`workbookTitle` is `"a"` (Python `replace` removes both occurrences of
`".pdf"`), while the filename with its extension removed is `"a.pdf"`:
the claim's "extension removed ... remaining name used verbatim" fails. -/
theorem workbookTitle_counterexample :
    (extract_metadata_from_filename "a.pdf.pdf".toList).workbookTitle = "a".toList ∧
    stripExtensionSpec "a.pdf.pdf".toList = "a.pdf".toList ∧
    ("a".toList : List Char) ≠ "a.pdf".toList := by decide

/-! ## Stage resolution (claim C6) -/

theorem findStage_eq_specTable (nl : List Char) :
    (findStage stage_patterns nl).getD "general".toList = stageOfSpecTable nl := by
  simp only [stage_patterns, findStage, reSearchAlts, List.any_cons, List.any_nil,
    Bool.or_false, Bool.or_eq_true, stageOfSpecTable]
  split_ifs <;> rfl

/-- **C6, counterexample.**  For the filename `"spar.pdfk.pdf"` no table
keyword occurs anywhere in the (lowercased) filename — the spec-side
first-match table yields `"general"` — yet the code returns `"spark"`:
removing the two `".pdf"` occurrences splices `"spar"` and `"k"` into
`"spark"` before the match runs. -/
theorem stage_match_counterexample :
    (extract_metadata_from_filename "spar.pdfk.pdf".toList).stage = "spark".toList ∧
    stageOfSpecTable (pyLower "spar.pdfk.pdf".toList) = "general".toList :=
  ⟨by decide, by decide⟩

/-- **C6, amended.**  `stage` is resolved by case-insensitive first-match
over the fixed ordered table applied to the filename **after removing every
`".pdf"` occurrence** (not the raw filename); the claim's concrete examples
all hold, as does the `"general"` default for a non-matching name. -/
theorem stage_resolution (filename : List Char) :
    (extract_metadata_from_filename filename).stage =
      stageOfSpecTable (pyLower (pyReplace filename ".pdf".toList [])) ∧
    (extract_metadata_from_filename "TIC Workbook 1 - Celebration.pdf".toList).stage =
      "celebration".toList ∧
    (extract_metadata_from_filename "TIC Workbook 2 - Vital Connection.pdf".toList).stage =
      "connection".toList ∧
    (extract_metadata_from_filename "TIC Workbook 4 - Big Pay-Off.pdf".toList).stage =
      "payOff".toList ∧
    (extract_metadata_from_filename "TIC Workbook 9.pdf".toList).stage =
      "general".toList := by
  refine ⟨?_, by decide, by decide, by decide, by decide⟩
  simp only [extract_metadata_from_filename]
  exact findStage_eq_specTable _

/-! ## Retry behaviour of `generate_embedding` (claims C1 and C10) -/

/-- **C1** (code bug).  `"boom"` is not a rate-limit-class error, yet
`generate_embedding` with `max_retries = 3` does not propagate it on the
attempt where it occurs: the `except` block falls through to the next loop
iteration, the service is called again, and the attempt-1 embedding is
returned.  This contradicts the claim and the source's own comment
`# Re-raise if not retryable or max retries exceeded` (embedder.py line 70),
whose condition checks only `attempt == max_retries - 1`. -/
theorem nonRateLimit_error_is_retried :
    isRateLimitError ⟨"boom".toList⟩ = false ∧
    generate_embedding svcNonRateLimitThenOk "hello".toList 3 = .ok [1] := by
  exact ⟨by decide, rfl⟩

theorem genLoop_exits (svc : List Char → Nat → Except PyError (List ℚ))
    (text : List Char) (maxRetries : Nat) :
    ∀ (remaining attempt : Nat), 1 ≤ remaining → attempt + remaining = maxRetries →
      genLoop svc text maxRetries attempt remaining ≠ none := by
  intro remaining
  induction remaining with
  | zero => intro attempt h1 _; omega
  | succ r ih =>
    intro attempt _ hsum
    rw [genLoop]
    cases hs : svc text attempt with
    | ok v => simp [hs]
    | error e =>
      simp only [hs]
      by_cases hrl : isRateLimitError e ∧ attempt < maxRetries - 1
      · rw [if_pos hrl]
        have hr : 1 ≤ r := by omega
        exact ih (attempt + 1) hr (by omega)
      · rw [if_neg hrl]
        by_cases hlast : attempt = maxRetries - 1
        · simp [hlast]
        · rw [if_neg hlast]
          have hr : 1 ≤ r := by omega
          exact ih (attempt + 1) hr (by omega)

/-- **C10.** For non-whitespace text and `max_retries ≥ 1`, the retry loop
of `generate_embedding` always exits by `return` or `raise`, so the
post-loop `return [0.0] * 1536` on line 75 never executes (the traced
model's flag stays `false`). -/
theorem post_loop_fallback_unreachable (svc : List Char → Nat → Except PyError (List ℚ))
    (text : List Char) (maxRetries : Nat)
    (htext : pstrip text ≠ []) (hmr : 1 ≤ maxRetries) :
    (generate_embedding_traced svc text maxRetries).2 = false := by
  have hcond : ¬ (text = [] ∨ pstrip text = []) := by
    rintro (h | h)
    · exact htext (by simp [h, pstrip, lstripPy, rstripPy])
    · exact htext h
  rw [generate_embedding_traced, if_neg hcond]
  cases hloop : genLoop svc (truncateText text) maxRetries 0 maxRetries with
  | none =>
    exact absurd hloop (genLoop_exits svc (truncateText text) maxRetries maxRetries 0 hmr
      (by omega))
  | some r => simp

theorem post_loop_fallback_unreachable_witness :
    (generate_embedding_traced (fun _ _ => .ok []) "hi".toList 3).2 = false :=
  post_loop_fallback_unreachable (fun _ _ => .ok []) "hi".toList 3 (by decide) (by decide)

/-! ## Batch embedding coverage (claims C2 and C9) -/

theorem assignEmbs_length :
    ∀ (b : List Chunk) (es : List (List ℚ)), (assignEmbs b es).length = b.length
  | [], _ => rfl
  | _ :: _, [] => rfl
  | c :: cs, e :: es => by
    rw [assignEmbs]
    simp only [List.length_cons, assignEmbs_length cs es]

theorem assignEmbs_embeddings :
    ∀ (b : List Chunk) (es : List (List ℚ)), es.length = b.length →
      (assignEmbs b es).map (fun c => c.embedding) = es.map some
  | [], [], _ => rfl
  | [], _ :: _, h => by simp at h
  | _ :: _, [], h => by simp at h
  | c :: cs, e :: es, h => by
    rw [assignEmbs]
    simp only [List.map_cons, List.cons.injEq, true_and]
    exact assignEmbs_embeddings cs es (by simpa using h)

theorem processWindow_length (svcB : List (List Char) → Except PyError (List (List ℚ)))
    (svc : List Char → Nat → Except PyError (List ℚ)) (b : List Chunk) :
    (processWindow svcB svc b).length = b.length := by
  rw [processWindow]
  cases svcB (b.map (fun c => c.content)) with
  | ok es => exact assignEmbs_length b es
  | error e => simp

theorem processWindow_value (svcB : List (List Char) → Except PyError (List (List ℚ)))
    (svc : List Char → Nat → Except PyError (List ℚ)) (b : List Chunk) (p : Nat)
    (hp : p < b.length)
    (hsvc : ∀ ts v, svcB ts = .ok v → v.length = ts.length) :
    ((processWindow svcB svc b).map (fun c => c.embedding))[p]? =
      some (some (
        match svcB (b.map (fun c => c.content)) with
        | .ok embs => embs.getD p zeroVec
        | .error _ => embedOneOrZero svc ((b.map (fun c => c.content)).getD p []))) := by
  rw [processWindow]
  cases hB : svcB (b.map (fun c => c.content)) with
  | ok es =>
    have hlen : es.length = b.length := by simpa using hsvc _ _ hB
    rw [assignEmbs_embeddings b es hlen]
    have hpe : p < es.length := by omega
    simp only [List.getElem?_map, List.getElem?_eq_getElem hpe, Option.map_some,
      List.getD_eq_getElem?_getD]
    rfl
  | error e =>
    rw [List.map_map]
    simp only [List.getElem?_map, List.getElem?_eq_getElem hp, Option.map_some,
      List.getD_eq_getElem?_getD]
    rfl

theorem expectedEmbedding_shift (svcB : List (List Char) → Except PyError (List (List ℚ)))
    (svc : List Char → Nat → Except PyError (List ℚ))
    (l : List Chunk) (bs p : Nat) (hbs : 0 < bs) (hple : bs ≤ p) :
    expectedEmbedding svcB svc l bs p = expectedEmbedding svcB svc (l.drop bs) bs (p - bs) := by
  have hw : l.drop (bs * (p / bs)) = (l.drop bs).drop (bs * ((p - bs) / bs)) := by
    rw [List.drop_drop]
    congr 1
    rw [Nat.div_eq_sub_div hbs hple]
    ring
  have hm : p % bs = (p - bs) % bs := Nat.mod_eq_sub_mod hple
  rw [expectedEmbedding, expectedEmbedding, hw, hm]

theorem batchEmbedGo_spec (svcB : List (List Char) → Except PyError (List (List ℚ)))
    (svc : List Char → Nat → Except PyError (List ℚ)) (bs : Nat) (hbs : 0 < bs)
    (hsvc : ∀ ts v, svcB ts = .ok v → v.length = ts.length) :
    ∀ (fuel : Nat) (l : List Chunk), l.length ≤ fuel →
      (batchEmbedGo svcB svc bs fuel l).length = l.length ∧
      ∀ p, p < l.length →
        ((batchEmbedGo svcB svc bs fuel l).map (fun c => c.embedding))[p]? =
          some (some (expectedEmbedding svcB svc l bs p)) := by
  intro fuel
  induction fuel with
  | zero =>
    intro l hl
    have : l = [] := List.length_eq_zero.mp (Nat.le_zero.mp hl)
    subst this
    exact ⟨rfl, fun p hp => by simp at hp⟩
  | succ fuel ih =>
    intro l hl
    match l with
    | [] => exact ⟨rfl, fun p hp => by simp at hp⟩
    | c :: rest =>
      have hdrop : ((c :: rest).drop bs).length ≤ fuel := by
        simp only [List.length_drop]
        simp only [List.length_cons] at hl ⊢
        omega
      obtain ⟨ihlen, ihval⟩ := ih ((c :: rest).drop bs) hdrop
      have hwlen : (processWindow svcB svc ((c :: rest).take bs)).length =
          ((c :: rest).take bs).length := processWindow_length svcB svc _
      have hsum : ((c :: rest).take bs).length + ((c :: rest).drop bs).length =
          (c :: rest).length := by
        rw [← List.length_append, List.take_append_drop]
      refine ⟨?_, ?_⟩
      · rw [batchEmbedGo, List.length_append, hwlen, ihlen]
        omega
      · intro p hp
        rw [batchEmbedGo, List.map_append]
        by_cases hpw : p < ((c :: rest).take bs).length
        · have hplt2 : p < ((processWindow svcB svc ((c :: rest).take bs)).map
              (fun c => c.embedding)).length := by
            rw [List.length_map, hwlen]; exact hpw
          rw [List.getElem?_append_left hplt2]
          have hplt : p < bs := by
            rw [List.length_take] at hpw
            omega
          have hdiv : p / bs = 0 := Nat.div_eq_of_lt hplt
          have hmod : p % bs = p := Nat.mod_eq_of_lt hplt
          rw [processWindow_value svcB svc _ p hpw hsvc, expectedEmbedding, hdiv, hmod]
          simp only [Nat.mul_zero, List.drop_zero]
        · have hge : ((processWindow svcB svc ((c :: rest).take bs)).map
              (fun c => c.embedding)).length ≤ p := by
            rw [List.length_map, hwlen]; omega
          rw [List.getElem?_append_right hge]
          have hlen2 : ((processWindow svcB svc ((c :: rest).take bs)).map
              (fun c => c.embedding)).length = ((c :: rest).take bs).length := by
            rw [List.length_map, hwlen]
          rw [hlen2]
          have hbsle : bs ≤ p := by
            simp only [List.length_take, List.length_cons] at hpw
            simp only [List.length_cons] at hp
            omega
          have htklen : ((c :: rest).take bs).length = bs := by
            simp only [List.length_take, List.length_cons]
            simp only [List.length_cons] at hp
            omega
          rw [htklen]
          have hprest : p - bs < ((c :: rest).drop bs).length := by
            simp only [List.length_drop]
            omega
          rw [ihval (p - bs) hprest]
          rw [expectedEmbedding_shift svcB svc (c :: rest) bs p hbs hbsle]

/-- **C2.**  For every chunk list, `batch_embed` (with a positive batch
size, against a service honouring one-vector-per-input on success) returns
a list of the same length in which every position carries an embedding:
the batch response vector matched by position when the window's batch call
succeeds, otherwise the individual embedding of that chunk, otherwise the
1536-dimension all-zero fallback (the two latter tiers are
`embedOneOrZero`); no failure pattern makes it raise. -/
theorem batch_embed_total_coverage (svcB : List (List Char) → Except PyError (List (List ℚ)))
    (svc : List Char → Nat → Except PyError (List ℚ))
    (chunks : List Chunk) (bs : Nat) (hbs : 0 < bs)
    (hsvc : ∀ ts v, svcB ts = .ok v → v.length = ts.length) :
    (batch_embed svcB svc chunks bs).length = chunks.length ∧
    ∀ p, p < chunks.length →
      ((batch_embed svcB svc chunks bs).map (fun c => c.embedding))[p]? =
        some (some (expectedEmbedding svcB svc chunks bs p)) := by
  rw [batch_embed, if_neg (Nat.pos_iff_ne_zero.mp hbs)]
  exact batchEmbedGo_spec svcB svc bs hbs hsvc chunks.length chunks le_rfl

theorem batch_embed_total_coverage_witness :
    ((batch_embed wSvcBErr wSvcErr [wChunk2] 100).map (fun c => c.embedding))[0]? =
      some (some (expectedEmbedding wSvcBErr wSvcErr [wChunk2] 100 0)) :=
  (batch_embed_total_coverage wSvcBErr wSvcErr [wChunk2] 100 (by decide)
    (fun ts v h => Except.noConfusion h)).2 0 (by decide)

/-! ## Frame properties (claim C9) -/

theorem assignEmbs_fields :
    ∀ (b : List Chunk) (es : List (List ℚ)),
      (assignEmbs b es).map chunkFields = b.map chunkFields
  | [], _ => rfl
  | _ :: _, [] => rfl
  | c :: cs, e :: es => by
    rw [assignEmbs]
    simp only [List.map_cons, List.cons.injEq]
    exact ⟨rfl, assignEmbs_fields cs es⟩

theorem processWindow_fields (svcB : List (List Char) → Except PyError (List (List ℚ)))
    (svc : List Char → Nat → Except PyError (List ℚ)) (b : List Chunk) :
    (processWindow svcB svc b).map chunkFields = b.map chunkFields := by
  rw [processWindow]
  cases svcB (b.map (fun c => c.content)) with
  | ok es => exact assignEmbs_fields b es
  | error e =>
    rw [List.map_map]
    rfl

theorem batchEmbedGo_fields (svcB : List (List Char) → Except PyError (List (List ℚ)))
    (svc : List Char → Nat → Except PyError (List ℚ)) (bs : Nat) :
    ∀ (fuel : Nat) (l : List Chunk),
      (batchEmbedGo svcB svc bs fuel l).map chunkFields = l.map chunkFields := by
  intro fuel
  induction fuel with
  | zero => intro l; cases l <;> rfl
  | succ fuel ih =>
    intro l
    match l with
    | [] => rfl
    | c :: rest =>
      rw [batchEmbedGo, List.map_append, processWindow_fields, ih]
      rw [← List.map_append, List.take_append_drop]

theorem uploadGo_congr (bulk : List URec → Bool) (single : URec → Bool)
    (serializer : List ℚ → List Char) :
    ∀ (fuel : Nat) (l1 l2 : List Chunk) (counts : ℤ × ℤ),
      l1.map (mkRecord serializer) = l2.map (mkRecord serializer) →
      uploadGo bulk single serializer fuel l1 counts =
        uploadGo bulk single serializer fuel l2 counts := by
  intro fuel
  induction fuel with
  | zero => intro l1 l2 counts _; cases l1 <;> cases l2 <;> rfl
  | succ fuel ih =>
    intro l1 l2 counts hmap
    match l1, l2 with
    | [], [] => rfl
    | [], c :: rest => simp at hmap
    | c :: rest, [] => simp at hmap
    | c1 :: r1, c2 :: r2 =>
      obtain ⟨s, e⟩ := counts
      have htake : ((c1 :: r1).take 100).map (mkRecord serializer) =
          ((c2 :: r2).take 100).map (mkRecord serializer) := by
        rw [List.map_take, List.map_take, hmap]
      have hdrop : ((c1 :: r1).drop 100).map (mkRecord serializer) =
          ((c2 :: r2).drop 100).map (mkRecord serializer) := by
        rw [List.map_drop, List.map_drop, hmap]
      rw [uploadGo, uploadGo, htake]
      exact ih _ _ _ hdrop

/-- **C9.**  `batch_embed` enriches strictly in place: it returns a list of
the same length and order in which every chunk keeps its `content`,
`metadata`, `chunk_index` and `source_pdf` unchanged (only the `embedding`
field can differ); and `upload_chunks` consumes chunks read-only — its
result depends only on the record fields it reads, never altering them (two
chunk lists with the same read projections are indistinguishable to it). -/
theorem enrichment_in_place :
    (∀ (svcB : List (List Char) → Except PyError (List (List ℚ)))
        (svc : List Char → Nat → Except PyError (List ℚ))
        (chunks : List Chunk) (bs : Nat), 0 < bs →
      (batch_embed svcB svc chunks bs).map chunkFields = chunks.map chunkFields) ∧
    (∀ (bulk : List URec → Bool) (single : URec → Bool)
        (serializer : List ℚ → List Char) (chunks1 chunks2 : List Chunk),
      chunks1.map (mkRecord serializer) = chunks2.map (mkRecord serializer) →
      upload_chunks bulk single serializer chunks1 =
        upload_chunks bulk single serializer chunks2) := by
  constructor
  · intro svcB svc chunks bs hbs
    rw [batch_embed, if_neg (Nat.pos_iff_ne_zero.mp hbs)]
    exact batchEmbedGo_fields svcB svc bs chunks.length chunks
  · intro bulk single serializer chunks1 chunks2 hmap
    have hlen : chunks1.length = chunks2.length := by
      have := congrArg List.length hmap
      simpa using this
    rw [upload_chunks, upload_chunks, hlen,
      uploadGo_congr bulk single serializer chunks2.length chunks1 chunks2 (0, 0) hmap]

theorem enrichment_in_place_witness :
    (batch_embed wSvcBErr wSvcErr [wChunk2] 100).map chunkFields =
        [wChunk2].map chunkFields ∧
    upload_chunks (fun _ => true) (fun _ => true) (fun _ => []) [wChunk2] =
      upload_chunks (fun _ => true) (fun _ => true) (fun _ => []) [wChunk2] :=
  ⟨enrichment_in_place.1 wSvcBErr wSvcErr [wChunk2] 100 (by decide),
   enrichment_in_place.2 (fun _ => true) (fun _ => true) (fun _ => []) [wChunk2] [wChunk2] rfl⟩

/-! ## Upload accounting (claim C3) -/

theorem retryLoop_counts (single : URec → Bool) :
    ∀ (recs : List URec) (s e : ℤ),
      retryLoop single recs (s, e) =
        (s + (recs.filter single).length, e - (recs.filter single).length) := by
  intro recs
  induction recs with
  | nil => intro s e; simp [retryLoop]
  | cons r rest ih =>
    intro s e
    by_cases h : single r
    · rw [retryLoop, if_pos h, ih]
      simp [List.filter_cons, h]
      constructor <;> ring
    · rw [retryLoop, if_neg h, ih]
      simp [List.filter_cons, h]

theorem uploadGo_counts (bulk : List URec → Bool) (single : URec → Bool)
    (serializer : List ℚ → List Char) :
    ∀ (fuel : Nat) (l : List Chunk) (s e : ℤ), l.length ≤ fuel →
      uploadGo bulk single serializer fuel l (s, e) =
        (s + l.length - uploadFailedK bulk single serializer fuel l,
         e + uploadFailedK bulk single serializer fuel l) := by
  intro fuel
  induction fuel with
  | zero =>
    intro l s e hl
    have : l = [] := List.length_eq_zero.mp (Nat.le_zero.mp hl)
    subst this
    simp [uploadGo, uploadFailedK]
  | succ fuel ih =>
    intro l s e hl
    match l with
    | [] => simp [uploadGo, uploadFailedK]
    | c :: rest =>
      have hsplit : ((c :: rest).take 100).length + ((c :: rest).drop 100).length =
          (c :: rest).length := by
        rw [← List.length_append, List.take_append_drop]
      have hdrop : ((c :: rest).drop 100).length ≤ fuel := by
        simp only [List.length_drop]
        simp only [List.length_cons] at hl ⊢
        omega
      by_cases hb : bulk (((c :: rest).take 100).map (mkRecord serializer))
      · rw [uploadGo, uploadFailedK]
        simp only [hb, if_pos, ih _ _ _ hdrop]
        simp only [List.length_map, Prod.mk.injEq]
        refine ⟨?_, ?_⟩ <;> (push_cast; omega)
      · rw [uploadGo, uploadFailedK]
        simp only [hb, if_neg, Bool.false_eq_true, not_false_iff, if_false,
          retryLoop_counts, ih _ _ _ hdrop]
        have hc := List.length_eq_length_filter_add
          (l := ((c :: rest).take 100).map (mkRecord serializer)) single
        simp only [List.length_map] at hc
        simp only [List.length_map, Prod.mk.injEq]
        refine ⟨?_, ?_⟩ <;> (push_cast; omega)

/-- **C3.** `upload_chunks` on `N` chunk records, of which exactly `k`
(`uploadFailedK`) fail both their batch's bulk insert and the per-record
retry, runs every batch to completion, ends with the cumulative pair
`(N − k, k)` of succeeded/failed counts, and raises an aggregate error
carrying `k` if and only if `k > 0`. -/
theorem upload_counts (bulk : List URec → Bool) (single : URec → Bool)
    (serializer : List ℚ → List Char) (chunks : List Chunk) :
    uploadGo bulk single serializer chunks.length chunks (0, 0) =
      ((chunks.length : ℤ) - uploadFailedK bulk single serializer chunks.length chunks,
       (uploadFailedK bulk single serializer chunks.length chunks : ℤ)) ∧
    upload_chunks bulk single serializer chunks =
      (if 0 < uploadFailedK bulk single serializer chunks.length chunks then
        Except.error (uploadFailedK bulk single serializer chunks.length chunks : ℤ)
      else
        Except.ok ((chunks.length : ℤ) -
            uploadFailedK bulk single serializer chunks.length chunks,
          (uploadFailedK bulk single serializer chunks.length chunks : ℤ))) := by
  have h := uploadGo_counts bulk single serializer chunks.length chunks 0 0 le_rfl
  refine ⟨by simpa using h, ?_⟩
  rw [upload_chunks, h]
  simp only [zero_add]
  by_cases hk : 0 < uploadFailedK bulk single serializer chunks.length chunks
  · rw [if_pos (by exact_mod_cast hk), if_pos hk]
  · rw [if_neg (by exact_mod_cast hk), if_neg hk]

/-! ## Chunk-index contiguity (claim C4) -/

theorem emitPieces_indices (md : Meta) (f : List Char) (pn : Nat) :
    ∀ (ts : List (List Char)) (ci : Nat),
      (emitPieces md f pn ts ci).1.map (fun c => c.chunk_index) =
        List.range' ci (emitPieces md f pn ts ci).1.length ∧
      (emitPieces md f pn ts ci).2 = ci + (emitPieces md f pn ts ci).1.length := by
  intro ts
  induction ts with
  | nil => intro ci; simp [emitPieces]
  | cons t ts ih =>
    intro ci
    by_cases h : (clean_chunk_text t).length < 50
    · simpa [emitPieces, h] using ih ci
    · have h1 := ih (ci + 1)
      simp only [emitPieces, if_neg h]
      refine ⟨?_, ?_⟩
      · simp only [List.map_cons, List.length_cons, List.range'_succ]
        exact congrArg _ h1.1
      · rw [h1.2]
        simp only [List.length_cons]
        omega

theorem emitPages_indices (split : List Char → List (List Char)) (md : Meta) (f : List Char) :
    ∀ (pages : List (List Char)) (pn ci : Nat),
      (emitPages split md f pages pn ci).map (fun c => c.chunk_index) =
        List.range' ci (emitPages split md f pages pn ci).length := by
  intro pages
  induction pages with
  | nil => intro pn ci; simp [emitPages]
  | cons pg rest ih =>
    intro pn ci
    by_cases h : pstrip pg = []
    · simpa [emitPages, h] using ih (pn + 1) ci
    · have he := emitPieces_indices md f pn (split pg) ci
      simp only [emitPages, if_neg h, List.map_append, List.length_append]
      rw [he.1, ih (pn + 1) _, he.2, List.range'_append_1, Nat.add_comm]

/-- **C4.** For every document (any splitter, filename and extraction
outcome), the chunk records returned by `chunk_pdf` carry `chunk_index`
values forming exactly the contiguous zero-based range `0..n-1` in emission
order — no gaps, no duplicates — whitespace-only pages and discarded short
chunks notwithstanding. -/
theorem chunk_index_contiguous (split : List Char → List (List Char))
    (pdf_filename : List Char) (extractResult : Except (List Char) (List (List Char))) :
    (chunk_pdf split pdf_filename extractResult).map (fun c => c.chunk_index) =
      List.range (chunk_pdf split pdf_filename extractResult).length := by
  rw [List.range_eq_range']
  cases extractResult with
  | error e => simp [chunk_pdf]
  | ok pages =>
    by_cases h : pages = []
    · simp [chunk_pdf, h]
    · simpa [chunk_pdf, h] using
        emitPages_indices split (extract_metadata_from_filename pdf_filename) pdf_filename pages 1 0
